import Mathlib

/-!
Shallow embedding of the utility module of the rust_xlsxwriter repository
(src/utility.rs) together with proofs about it.

Conventions of the embedding:
* Rust u16 / u32 values are represented as Nat; where the Rust code can
  wrap (a cast such as `as u16`, or an increment that can exceed the
  type's range) the embedding takes the value modulo 2^16 (resp. 2^32)
  explicitly.
* Rust `String` / `&str` values are Lean `String`s; iteration over
  `chars()` is iteration over `String.data`.
* The one place where unsigned arithmetic can underflow or overflow in a
  way the surrounding code does not mask away, `column_name_to_number`,
  is embedded with checked arithmetic: it returns `none` exactly when
  the Rust u16 arithmetic would leave the range of the type.
-/

/-- The `remainder` computed by one iteration of the loop of
column_number_to_name in src/utility.rs: col_num % 26, with a remainder
of 0 remapped to 26. -/
def bijDigit (colNum : Nat) : Nat :=
  if colNum % 26 = 0 then 26 else colNum % 26

/-- The while loop of column_number_to_name from src/utility.rs: while
col_num > 0, compute the remainder, prepend the letter with code
64 + remainder to the accumulated column name, and continue with
(col_num - 1) / 26. -/
def colNameLoop (colNum : Nat) (colName : List Char) : List Char :=
  if h : colNum = 0 then colName
  else colNameLoop ((colNum - 1) / 26) (Char.ofNat (64 + bijDigit colNum) :: colName)
termination_by colNum
decreasing_by
  exact Nat.lt_of_le_of_lt (Nat.div_le_self _ _) (Nat.sub_lt (Nat.pos_of_ne_zero h) Nat.one_pos)

/-- column_number_to_name from src/utility.rs.  The Rust argument is a
u16 (`ColNum`), so the initial increment `col_num + 1` is taken mod
2^16. -/
def column_number_to_name (colNum : Nat) : String :=
  ⟨colNameLoop ((colNum + 1) % 65536) []⟩

/-- The loop of column_name_to_number from src/utility.rs, with checked
u16 arithmetic: for each character, the Rust code computes
col_num * 26 + (char as u16 - 'A' as u16 + 1).  The cast `char as u16`
truncates the scalar value to 16 bits; the subtraction underflows
(modelled as none) when that value is below 'A' = 65, and the
multiply-add overflows (none) when the new accumulator leaves the u16
range. -/
def colParseLoop : List Char → Nat → Option Nat
  | [], colNum => some colNum
  | c :: cs, colNum =>
    if 65 ≤ c.toNat % 65536 then
      if colNum * 26 + (c.toNat % 65536 - 65 + 1) < 65536 then
        colParseLoop cs (colNum * 26 + (c.toNat % 65536 - 65 + 1))
      else none
    else none

/-- column_name_to_number from src/utility.rs with checked u16
arithmetic: fold the multiply-add over the characters starting from 0,
then subtract 1; the final subtraction `col_num - 1` underflows
(modelled as none) when the accumulator is still 0, which happens
exactly on the empty string. -/
def column_name_to_number (column : String) : Option Nat :=
  match colParseLoop column.data 0 with
  | some colNum => if 1 ≤ colNum then some (colNum - 1) else none
  | none => none

theorem bijDigit_ge_one (n : Nat) : 1 ≤ bijDigit n := by
  unfold bijDigit; split <;> omega

theorem bijDigit_le (n : Nat) : bijDigit n ≤ 26 := by
  unfold bijDigit; split <;> omega

/-- The bijective base-26 division step recovers the dividend. -/
theorem bijDigit_step (n : Nat) (h : n ≠ 0) : 26 * ((n - 1) / 26) + bijDigit n = n := by
  unfold bijDigit; split <;> omega

theorem charOfNat_letter_toNat : ∀ r < 27, 1 ≤ r → (Char.ofNat (64 + r)).toNat = 64 + r := by
  decide

theorem colNameLoop_append (n : Nat) :
    ∀ acc, colNameLoop n acc = colNameLoop n [] ++ acc := by
  induction n using Nat.strong_induction_on with
  | _ n ih =>
    intro acc
    by_cases h : n = 0
    · subst h
      simp [colNameLoop]
    · have hlt : (n - 1) / 26 < n :=
        Nat.lt_of_le_of_lt (Nat.div_le_self _ _) (Nat.sub_lt (Nat.pos_of_ne_zero h) Nat.one_pos)
      rw [colNameLoop, dif_neg h, ih _ hlt]
      conv_rhs => rw [colNameLoop, dif_neg h, ih _ hlt]
      simp

/-- Unfolding one step of the name loop, with the produced letter split
off at the right end of the string. -/
theorem colNameLoop_decomp (n : Nat) (h : n ≠ 0) :
    colNameLoop n [] =
      colNameLoop ((n - 1) / 26) [] ++ [Char.ofNat (64 + bijDigit n)] := by
  conv_lhs => rw [colNameLoop, dif_neg h]
  exact colNameLoop_append _ _

theorem colNameLoop_length (n : Nat) (h : n ≠ 0) :
    (colNameLoop n []).length = (colNameLoop ((n - 1) / 26) []).length + 1 := by
  rw [colNameLoop_decomp n h]
  simp

/-- The checked parse of the name of n, continued with any suffix,
multiplies the accumulator by 26 to the number of letters and adds n,
as long as that value fits in a u16. -/
theorem colParseLoop_colNameLoop (n : Nat) :
    ∀ a cs, a * 26 ^ (colNameLoop n []).length + n ≤ 65535 →
      colParseLoop (colNameLoop n [] ++ cs) a
        = colParseLoop cs (a * 26 ^ (colNameLoop n []).length + n) := by
  induction n using Nat.strong_induction_on with
  | _ n ih =>
    intro a cs hbound
    by_cases h : n = 0
    · subst h
      rw [colNameLoop]
      simp
    · have hlt : (n - 1) / 26 < n :=
        Nat.lt_of_le_of_lt (Nat.div_le_self _ _) (Nat.sub_lt (Nat.pos_of_ne_zero h) Nat.one_pos)
      have hr1 : 1 ≤ bijDigit n := bijDigit_ge_one n
      have hr26 : bijDigit n ≤ 26 := bijDigit_le n
      have hstep : 26 * ((n - 1) / 26) + bijDigit n = n := bijDigit_step n h
      have hchar : (Char.ofNat (64 + bijDigit n)).toNat = 64 + bijDigit n :=
        charOfNat_letter_toNat _ (by omega) (by omega)
      have hlen : (colNameLoop n []).length = (colNameLoop ((n - 1) / 26) []).length + 1 :=
        colNameLoop_length n h
      have hpow : a * 26 ^ (colNameLoop n []).length
          = a * 26 ^ (colNameLoop ((n - 1) / 26) []).length * 26 := by
        rw [hlen, pow_succ, ← Nat.mul_assoc]
      have hbm : a * 26 ^ (colNameLoop ((n - 1) / 26) []).length + (n - 1) / 26 ≤ 65535 := by
        rw [hpow] at hbound
        omega
      rw [colNameLoop_decomp n h, List.append_assoc, List.singleton_append, ih _ hlt _ _ hbm,
        colParseLoop, hchar]
      have hu : (64 + bijDigit n) % 65536 = 64 + bijDigit n := Nat.mod_eq_of_lt (by omega)
      rw [hu, if_pos (by omega : 65 ≤ 64 + bijDigit n)]
      have hv : (a * 26 ^ (colNameLoop ((n - 1) / 26) []).length + (n - 1) / 26) * 26
            + (64 + bijDigit n - 65 + 1)
          = a * 26 ^ (colNameLoop n []).length + n := by
        rw [hpow]
        omega
      rw [hv, if_pos (by omega), ← colNameLoop_decomp n h]

/-- Claim C1: for every column index col in [0, 16384],
column_name_to_number (column_number_to_name col) = some col: the two
codec functions are total (the checked parse produces a value) and
mutual inverses on this range. -/
theorem claim_c1_column_codec_roundtrip (col : Nat) (h : col ≤ 16384) :
    column_name_to_number (column_number_to_name col) = some col := by
  unfold column_number_to_name column_name_to_number
  have hmod : (col + 1) % 65536 = col + 1 := Nat.mod_eq_of_lt (by omega)
  rw [hmod]
  have hdata : (String.mk (colNameLoop (col + 1) [])).data = colNameLoop (col + 1) [] := rfl
  rw [hdata]
  have hb : (0 : Nat) * 26 ^ (colNameLoop (col + 1) []).length + (col + 1) ≤ 65535 := by
    omega
  have hmain := colParseLoop_colNameLoop (col + 1) 0 [] hb
  rw [List.append_nil] at hmain
  rw [hmain]
  simp [colParseLoop]

theorem claim_c1_column_codec_roundtrip_witness :
    702 ≤ 16384 ∧ column_name_to_number (column_number_to_name 702) = some 702 :=
  ⟨by omega, claim_c1_column_codec_roundtrip 702 (by omega)⟩

/-- Claim C3: column_number_to_name produces the bijective base-26
encoding with no digit for zero at the boundary values 0, 25, 26 and
16383, and does not enforce the format ceiling: 16384 maps to "XFE". -/
theorem claim_c3_column_number_to_name_boundaries :
    column_number_to_name 0 = "A" ∧ column_number_to_name 25 = "Z"
      ∧ column_number_to_name 26 = "AA" ∧ column_number_to_name 16383 = "XFD"
      ∧ column_number_to_name 16384 = "XFE" := by
  refine ⟨?_, ?_, ?_, ?_, ?_⟩ <;> simp [column_number_to_name, colNameLoop, bijDigit]

/-- The UTF-8 encoding of one Unicode scalar value, as a list of byte
values; used to embed Rust's `password.as_bytes()`. -/
def utf8Bytes1 (c : Char) : List Nat :=
  if c.toNat < 128 then [c.toNat]
  else if c.toNat < 2048 then [192 + c.toNat / 64, 128 + c.toNat % 64]
  else if c.toNat < 65536 then
    [224 + c.toNat / 4096, 128 + c.toNat / 64 % 64, 128 + c.toNat % 64]
  else
    [240 + c.toNat / 262144, 128 + c.toNat / 4096 % 64, 128 + c.toNat / 64 % 64,
      128 + c.toNat % 64]

/-- The UTF-8 byte sequence of a string: `s.as_bytes()` in Rust.  Its
length is `s.len()`. -/
def strBytes (s : String) : List Nat :=
  s.data.flatMap utf8Bytes1

/-- The 15-bit rotate-left-by-1 of hash_password in src/utility.rs:
hash = ((hash >> 14) & 0x01) | ((hash << 1) & 0x7fff).  The u16 shift
hash << 1 wraps mod 2^16 before the mask is applied. -/
def rotHash (hash : Nat) : Nat :=
  ((hash >>> 14) &&& 0x01) ||| (((hash <<< 1) % 65536) &&& 0x7fff)

/-- hash_password from src/utility.rs: 0 for the empty password;
otherwise fold the 15-bit rotation and xor over the password's bytes in
reverse order starting from 0, apply one more rotation, xor in the byte
length (`password.len() as u16`, i.e. mod 2^16), and xor the constant
0xCE4B. -/
def hash_password (password : String) : Nat :=
  if password.data = [] then 0
  else
    (rotHash ((strBytes password).reverse.foldl (fun hash byte => rotHash hash ^^^ byte) 0)
        ^^^ ((strBytes password).length % 65536))
      ^^^ 0xCE4B

/-- The rotation exactly as the spec writes it:
hash = ((hash >> 14) & 1) | ((hash << 1) & 0x7FFF), on the
mathematical value with no intermediate u16 wrap. -/
def specRot (hash : Nat) : Nat :=
  ((hash >>> 14) &&& 1) ||| ((hash <<< 1) &&& 0x7FFF)

/-- The password hash as the spec describes it (§4.6): 0 for an empty
password; otherwise start from 0, iterate the bytes in reverse order
rotating then xoring, apply one more rotation, xor the byte length (as
a 16-bit value, per the spec's 16-bit data model), then xor 0xCE4B. -/
def hashPasswordSpec (password : String) : Nat :=
  if password.data = [] then 0
  else
    (specRot ((strBytes password).reverse.foldl (fun hash byte => specRot hash ^^^ byte) 0)
        ^^^ ((strBytes password).length % 65536))
      ^^^ 0xCE4B

/-- Masking to 15 bits makes the intermediate u16 wrap of the shifted
hash invisible, so the code's rotation and the spec's rotation agree. -/
theorem rotHash_eq_specRot : rotHash = specRot := by
  funext hash
  unfold rotHash specRot
  have h : ((hash <<< 1) % 65536) &&& 0x7fff = (hash <<< 1) &&& 0x7FFF := by
    rw [show (0x7fff : Nat) = 2 ^ 15 - 1 by norm_num]
    rw [Nat.and_pow_two_sub_one_eq_mod, Nat.and_pow_two_sub_one_eq_mod]
    exact Nat.mod_mod_of_dvd _ (by norm_num)
  rw [h]

/-- Claim C2: hash_password returns 0 for the empty password, computes
exactly the reverse-order rotate-and-xor algorithm of the spec for
every non-empty password, and hash_password "password" = 0x83AF. -/
theorem claim_c2_hash_password :
    hash_password "" = 0 ∧ hash_password "password" = 0x83AF
      ∧ ∀ password : String, hash_password password = hashPasswordSpec password := by
  refine ⟨by decide, by decide, fun password => ?_⟩
  unfold hash_password hashPasswordSpec
  rw [rotHash_eq_specRot]

/-- sheetname.replace('\'', "''") from quote_sheetname in
src/utility.rs: double every apostrophe. -/
def doubleApos : List Char → List Char
  | [] => []
  | c :: cs => if c = '\'' then '\'' :: '\'' :: doubleApos cs else c :: doubleApos cs

/-- The quoting condition of quote_sheetname in src/utility.rs:
contains(' ') || contains('!') || contains('\''). -/
def needsQuote (l : List Char) : Bool :=
  l.any (· == ' ') || l.any (· == '!') || l.any (· == '\'')

/-- quote_sheetname from src/utility.rs: a name that already starts
with an apostrophe is returned unchanged; otherwise every apostrophe is
doubled and, if the result contains a space, a bang or an apostrophe,
the whole name is wrapped in a single pair of apostrophes. -/
def quote_sheetname (sheetname : String) : String :=
  if sheetname.data.head? = some '\'' then sheetname
  else if needsQuote (doubleApos sheetname.data) then
    ⟨'\'' :: (doubleApos sheetname.data ++ ['\''])⟩
  else ⟨doubleApos sheetname.data⟩

/-- Doubling apostrophes in a string that has none is the identity. -/
theorem doubleApos_of_no_apos : ∀ l : List Char, (∀ c ∈ l, c ≠ '\'') → doubleApos l = l := by
  intro l h
  induction l with
  | nil => rfl
  | cons c cs ih =>
    rw [doubleApos, if_neg (h c (by simp))]
    rw [ih (fun d hd => h d (by simp [hd]))]

/-- Claim C6: quote_sheetname returns its input unchanged when it
starts with an apostrophe, otherwise doubles every apostrophe and
wraps the result in apostrophes exactly when it contains a space, a
bang or an apostrophe; with the three concrete values from the spec. -/
theorem claim_c6_quote_sheetname :
    (∀ s : String, quote_sheetname s =
      if s.data.head? = some '\'' then s
      else if needsQuote (doubleApos s.data) then ⟨'\'' :: (doubleApos s.data ++ ['\''])⟩
      else ⟨doubleApos s.data⟩)
      ∧ quote_sheetname "Sheet 5" = "'Sheet 5'"
      ∧ quote_sheetname "Sheet1" = "Sheet1"
      ∧ quote_sheetname "Sheet'7" = "'Sheet''7'" :=
  ⟨fun _ => rfl, by decide, by decide, by decide⟩

/-- Claim C9: quote_sheetname is idempotent on every input string: the
output either starts with an apostrophe (hitting the pre-quoted no-op
shortcut) or contains no space, bang or apostrophe, so a second
application changes nothing. -/
theorem claim_c9_quote_sheetname_idempotent (s : String) :
    quote_sheetname (quote_sheetname s) = quote_sheetname s := by
  by_cases h1 : s.data.head? = some '\''
  · have hqs : quote_sheetname s = s := by rw [quote_sheetname, if_pos h1]
    rw [hqs]
    exact hqs
  · by_cases h2 : needsQuote (doubleApos s.data)
    · have hqs : quote_sheetname s = ⟨'\'' :: (doubleApos s.data ++ ['\''])⟩ := by
        rw [quote_sheetname, if_neg h1, if_pos h2]
      have hh : (String.mk ('\'' :: (doubleApos s.data ++ ['\'']))).data.head?
          = some '\'' := rfl
      rw [hqs, quote_sheetname, if_pos hh]
    · have hqs : quote_sheetname s = ⟨doubleApos s.data⟩ := by
        rw [quote_sheetname, if_neg h1, if_neg h2]
      have hno : ∀ c ∈ doubleApos s.data, c ≠ '\'' := by
        intro c hc hceq
        apply h2
        simp only [needsQuote, Bool.or_eq_true, List.any_eq_true, beq_iff_eq]
        exact Or.inr ⟨c, hc, hceq⟩
      have hhead : ¬ (doubleApos s.data).head? = some '\'' := by
        cases hl : doubleApos s.data with
        | nil => simp
        | cons c cs =>
          simp only [List.head?_cons, Option.some.injEq]
          exact hno c (by rw [hl]; simp)
      have hfix : doubleApos (doubleApos s.data) = doubleApos s.data :=
        doubleApos_of_no_apos _ hno
      rw [hqs, quote_sheetname]
      have hdata : (String.mk (doubleApos s.data)).data = doubleApos s.data := rfl
      rw [hdata, if_neg hhead, hfix, if_neg h2, ← hqs, hqs]

/-- The error variants produced by validate_sheetname in
src/utility.rs, each carrying the caller-supplied context message. -/
inductive XlsxError where
  | SheetnameCannotBeBlank (message : String)
  | SheetnameLengthExceeded (message : String)
  | SheetnameContainsInvalidCharacter (message : String)
  | SheetnameStartsOrEndsWithApostrophe (message : String)
deriving DecidableEq

/-- The characters rejected by validate_sheetname in src/utility.rs. -/
def invalidSheetChars : List Char := ['*', '?', ':', '[', ']', '\\', '/']

/-- validate_sheetname from src/utility.rs, with the checks in source
order: blank name, character count above 31, invalid character,
leading or trailing apostrophe. -/
def validate_sheetname (name message : String) : Except XlsxError Unit :=
  if name.data = [] then .error (.SheetnameCannotBeBlank message)
  else if name.data.length > 31 then .error (.SheetnameLengthExceeded message)
  else if name.data.any (fun c => invalidSheetChars.contains c) then
    .error (.SheetnameContainsInvalidCharacter message)
  else if name.data.head? = some '\'' ∨ name.data.getLast? = some '\'' then
    .error (.SheetnameStartsOrEndsWithApostrophe message)
  else .ok ()

/-- Claim C5: validate_sheetname returns Ok exactly when the name is
non-empty, at most 31 characters, free of the characters * ? : [ ] \ /
and neither starts nor ends with an apostrophe; otherwise it returns
the error of the first failing check in the fixed source order
(first-match-wins). -/
theorem claim_c5_validate_sheetname (name message : String) :
    (validate_sheetname name message = .ok () ↔
      name.data ≠ [] ∧ name.data.length ≤ 31
        ∧ (∀ c ∈ name.data, c ∉ invalidSheetChars)
        ∧ ¬(name.data.head? = some '\'' ∨ name.data.getLast? = some '\''))
    ∧ (validate_sheetname name message = .error (.SheetnameCannotBeBlank message) ↔
        name.data = [])
    ∧ (validate_sheetname name message = .error (.SheetnameLengthExceeded message) ↔
        name.data ≠ [] ∧ 31 < name.data.length)
    ∧ (validate_sheetname name message
          = .error (.SheetnameContainsInvalidCharacter message) ↔
        name.data ≠ [] ∧ name.data.length ≤ 31
          ∧ ∃ c ∈ name.data, c ∈ invalidSheetChars)
    ∧ (validate_sheetname name message
          = .error (.SheetnameStartsOrEndsWithApostrophe message) ↔
        name.data ≠ [] ∧ name.data.length ≤ 31
          ∧ (∀ c ∈ name.data, c ∉ invalidSheetChars)
          ∧ (name.data.head? = some '\'' ∨ name.data.getLast? = some '\'')) := by
  unfold validate_sheetname
  split_ifs with h1 h2 h3 h4 <;>
    simp_all [List.any_eq_true, List.elem_iff]

/-- One checked parse step on an uppercase character whose multiply-add
stays in the u16 range. -/
theorem colParseLoop_step (c : Char) (cs : List Char) (a : Nat)
    (h65 : 65 ≤ c.toNat) (h90 : c.toNat ≤ 90)
    (hfit : a * 26 + (c.toNat - 65 + 1) < 65536) :
    colParseLoop (c :: cs) a = colParseLoop cs (a * 26 + (c.toNat - 65 + 1)) := by
  have hm : c.toNat % 65536 = c.toNat := Nat.mod_eq_of_lt (by omega)
  rw [colParseLoop, hm, if_pos (by omega), if_pos (by omega)]

/-- Claim C10: column_name_to_number is not total: on the empty string
the final subtraction underflows the u16 column type and no value is
returned under checked arithmetic; on a non-empty string of at most
three uppercase letters A-Z every intermediate value stays within the
u16 range and a value is returned. -/
theorem claim_c10_column_name_to_number_domain :
    column_name_to_number "" = none
      ∧ ∀ s : String, s.data ≠ [] → s.data.length ≤ 3 →
          (∀ c ∈ s.data, 65 ≤ c.toNat ∧ c.toNat ≤ 90) →
          ∃ v, column_name_to_number s = some v := by
  refine ⟨by decide, ?_⟩
  intro s hne hlen hup
  obtain ⟨l⟩ := s
  rcases l with _ | ⟨c1, _ | ⟨c2, _ | ⟨c3, _ | ⟨c4, l⟩⟩⟩⟩
  · simp at hne
  · have hb1 := hup c1 (by simp)
    unfold column_name_to_number
    rw [show (String.mk [c1]).data = [c1] from rfl]
    rw [colParseLoop_step c1 _ 0 (by omega) (by omega) (by omega), colParseLoop]
    exact ⟨_, by simp only []; rw [if_pos (by omega)]⟩
  · have hb1 := hup c1 (by simp)
    have hb2 := hup c2 (by simp)
    unfold column_name_to_number
    rw [show (String.mk [c1, c2]).data = [c1, c2] from rfl]
    rw [colParseLoop_step c1 _ 0 (by omega) (by omega) (by omega)]
    rw [colParseLoop_step c2 _ _ (by omega) (by omega) (by omega), colParseLoop]
    exact ⟨_, by simp only []; rw [if_pos (by omega)]⟩
  · have hb1 := hup c1 (by simp)
    have hb2 := hup c2 (by simp)
    have hb3 := hup c3 (by simp)
    unfold column_name_to_number
    rw [show (String.mk [c1, c2, c3]).data = [c1, c2, c3] from rfl]
    rw [colParseLoop_step c1 _ 0 (by omega) (by omega) (by omega)]
    rw [colParseLoop_step c2 _ _ (by omega) (by omega) (by omega)]
    rw [colParseLoop_step c3 _ _ (by omega) (by omega) (by omega), colParseLoop]
    exact ⟨_, by simp only []; rw [if_pos (by omega)]⟩
  · simp at hlen

theorem claim_c10_column_name_to_number_domain_witness :
    ∃ v, column_name_to_number "XFD" = some v :=
  claim_c10_column_name_to_number_domain.2 "XFD" (by decide) (by decide) (by decide)

/-- Width-3 characters of pixel_width in src/utility.rs. -/
def cw3 : List Char := [' ', '\'']

/-- Width-4 characters (Char.ofNat 96 is the backtick). -/
def cw4 : List Char := [',', '.', ':', ';', 'I', Char.ofNat 96, 'i', 'j', 'l']

/-- Width-5 characters (Char.ofNat 123 and 125 are the braces). -/
def cw5 : List Char :=
  ['!', '(', ')', '-', 'J', '[', ']', 'f', 'r', 't', Char.ofNat 123, Char.ofNat 125]

/-- Width-6 characters. -/
def cw6 : List Char := ['"', '/', 'L', '\\', 'c', 's', 'z']

/-- Width-7 characters. -/
def cw7 : List Char :=
  ['#', '$', '*', '+', '0', '1', '2', '3', '4', '5', '6', '7', '8', '9',
    '<', '=', '>', '?', 'E', 'F', 'S', 'T', 'Y', 'Z', '^', '_', 'a', 'g',
    'k', 'v', 'x', 'y', '|', '~']

/-- Width-8 characters (explicitly listed; unlisted characters also
default to 8). -/
def cw8 : List Char :=
  ['B', 'C', 'K', 'P', 'R', 'X', 'b', 'd', 'e', 'h', 'n', 'o', 'p', 'q', 'u']

/-- Width-9 characters. -/
def cw9 : List Char := ['A', 'D', 'G', 'H', 'U', 'V']

/-- Width-10 characters. -/
def cw10 : List Char := ['&', 'N', 'O', 'Q']

/-- Width-11 characters. -/
def cw11 : List Char := ['%', 'w']

/-- Width-12 characters. -/
def cw12 : List Char := ['M', 'm']

/-- Width-13 characters. -/
def cw13 : List Char := ['@', 'W']

/-- The per-character width match of pixel_width in src/utility.rs;
any character not in the table, including all non-ASCII characters,
falls through to the default arm with width 8. -/
def charWidth (c : Char) : Nat :=
  if c ∈ cw3 then 3
  else if c ∈ cw4 then 4
  else if c ∈ cw5 then 5
  else if c ∈ cw6 then 6
  else if c ∈ cw7 then 7
  else if c ∈ cw8 then 8
  else if c ∈ cw9 then 9
  else if c ∈ cw10 then 10
  else if c ∈ cw11 then 11
  else if c ∈ cw12 then 12
  else if c ∈ cw13 then 13
  else 8

/-- All characters with an explicit arm in the width table. -/
def tableChars : List Char :=
  cw3 ++ cw4 ++ cw5 ++ cw6 ++ cw7 ++ cw8 ++ cw9 ++ cw10 ++ cw11 ++ cw12 ++ cw13

/-- pixel_width from src/utility.rs: sum the per-character widths over
the characters of the string into a u16 accumulator; each addition
wraps mod 2^16. -/
def pixel_width (string : String) : Nat :=
  string.data.foldl (fun length c => (length + charWidth c) % 65536) 0

/-- A character with no explicit arm in the width table gets the
default width 8. -/
theorem charWidth_default (c : Char) (hc : c ∉ tableChars) : charWidth c = 8 := by
  simp only [tableChars, List.mem_append, not_or] at hc
  obtain ⟨⟨⟨⟨⟨⟨⟨⟨⟨⟨h3, h4⟩, h5⟩, h6⟩, h7⟩, h8⟩, h9⟩, h10⟩, h11⟩, h12⟩, h13⟩ := hc
  unfold charWidth
  rw [if_neg h3, if_neg h4, if_neg h5, if_neg h6, if_neg h7, if_neg h8, if_neg h9,
    if_neg h10, if_neg h11, if_neg h12, if_neg h13]

/-- The wrapping accumulation of pixel_width is the plain sum of the
widths, taken mod 2^16. -/
theorem pixelFold_eq_sum_mod : ∀ (l : List Char) (a : Nat), a < 65536 →
    l.foldl (fun length c => (length + charWidth c) % 65536) a
      = (a + (l.map charWidth).sum) % 65536 := by
  intro l
  induction l with
  | nil => intro a ha; simp [Nat.mod_eq_of_lt ha]
  | cons c cs ih =>
    intro a ha
    rw [List.foldl_cons, ih _ (Nat.mod_lt _ (by omega)), Nat.mod_add_mod, List.map_cons,
      List.sum_cons, Nat.add_assoc]

/-- Counterexample to claim C8 as stated: on a string of 5042 at-signs
the u16 width accumulator wraps, so pixel_width is not the plain sum of
the per-character widths (which is 5042 * 13 = 65546). -/
theorem claim_c8_pixel_width_counterexample :
    pixel_width ⟨List.replicate 5042 '@'⟩
      ≠ ((String.mk (List.replicate 5042 '@')).data.map charWidth).sum := by
  have hdata : (String.mk (List.replicate 5042 '@')).data = List.replicate 5042 '@' := rfl
  have hw : charWidth '@' = 13 := by decide
  have hsum : ((List.replicate 5042 '@').map charWidth).sum = 65546 := by
    rw [List.map_replicate, hw, List.sum_const_nat]
  have hpw : pixel_width ⟨List.replicate 5042 '@'⟩ = 10 := by
    show (List.replicate 5042 '@').foldl (fun length c => (length + charWidth c) % 65536) 0 = 10
    rw [pixelFold_eq_sum_mod _ 0 (by omega), hsum]
  rw [hdata, hsum, hpw]
  omega

/-- Claim C8, amended: pixel_width is the sum of the fixed
per-character widths taken mod 2^16 (the u16 accumulator wraps);
every character without an explicit arm in the table, including every
non-ASCII character, contributes exactly 8; and the spec's concrete
values hold. -/
theorem claim_c8_pixel_width_amended :
    (∀ s : String, pixel_width s = (s.data.map charWidth).sum % 65536)
      ∧ (∀ c : Char, c ∉ tableChars → charWidth c = 8)
      ∧ (∀ c : Char, 128 ≤ c.toNat → pixel_width ⟨[c]⟩ = 8)
      ∧ pixel_width " " = 3 ∧ pixel_width "Hello" = 33 ∧ pixel_width "" = 0 := by
  refine ⟨fun s => ?_, charWidth_default, ?_, by decide, by decide, by decide⟩
  · have h := pixelFold_eq_sum_mod s.data 0 (by omega)
    rw [Nat.zero_add] at h
    exact h
  · intro c hc
    have htab : ∀ d ∈ tableChars, d.toNat < 128 := by decide
    have hmem : c ∉ tableChars := fun hm => by
      have := htab c hm
      omega
    show (0 + charWidth c) % 65536 = 8
    rw [charWidth_default c hmem]

theorem claim_c8_pixel_width_amended_witness :
    ('é' ∉ tableChars ∧ charWidth 'é' = 8)
      ∧ (128 ≤ 'é'.toNat ∧ pixel_width ⟨['é']⟩ = 8) :=
  ⟨⟨by decide, claim_c8_pixel_width_amended.2.1 'é' (by decide)⟩,
    ⟨by decide, claim_c8_pixel_width_amended.2.2.1 'é' (by decide)⟩⟩

/-- The decimal digits of n, most significant first, as characters;
this is what Nat.toDigitsCore produces when given enough fuel. -/
def natDigs (n : Nat) : List Char :=
  if h : n / 10 = 0 then [Nat.digitChar (n % 10)]
  else natDigs (n / 10) ++ [Nat.digitChar (n % 10)]
termination_by n
decreasing_by
  exact Nat.div_lt_self (Nat.pos_of_ne_zero (fun h0 => h (by simp [h0]))) (by omega)

theorem toDigitsCore_eq_natDigs :
    ∀ (fuel n : Nat) (ds : List Char), n < fuel →
      Nat.toDigitsCore 10 fuel n ds = natDigs n ++ ds := by
  intro fuel
  induction fuel with
  | zero => intro n ds h; omega
  | succ fuel ih =>
    intro n ds h
    rw [Nat.toDigitsCore]
    by_cases h0 : n / 10 = 0
    · rw [if_pos h0]
      conv_rhs => rw [natDigs, dif_pos h0]
      rfl
    · rw [if_neg h0, ih _ _ (by omega : n / 10 < fuel)]
      conv_rhs => rw [natDigs, dif_neg h0]
      simp

/-- The characters of the decimal rendering of a Nat. -/
theorem repr_data (n : Nat) : (Nat.repr n).data = natDigs n := by
  show (Nat.toDigits 10 n).asString.data = natDigs n
  rw [Nat.toDigits, toDigitsCore_eq_natDigs (n + 1) n [] (by omega), List.append_nil]
  rfl

theorem digitChar_toNat : ∀ m < 10, (Nat.digitChar m).toNat = 48 + m := by
  decide

/-- Every character of a decimal rendering is a digit 0-9. -/
theorem natDigs_digits (n : Nat) : ∀ c ∈ natDigs n, 48 ≤ c.toNat ∧ c.toNat ≤ 57 := by
  induction n using Nat.strong_induction_on with
  | _ n ih =>
    intro c hc
    have hd : (Nat.digitChar (n % 10)).toNat = 48 + n % 10 :=
      digitChar_toNat _ (Nat.mod_lt _ (by omega))
    have hm : n % 10 < 10 := Nat.mod_lt _ (by omega)
    by_cases h0 : n / 10 = 0
    · rw [natDigs, dif_pos h0] at hc
      simp only [List.mem_singleton] at hc
      subst hc
      omega
    · rw [natDigs, dif_neg h0] at hc
      rcases List.mem_append.mp hc with hmem | hmem
      · exact ih _ (Nat.div_lt_self (by omega) (by omega)) c hmem
      · simp only [List.mem_singleton] at hmem
        subst hmem
        omega

theorem natDigs_ne_nil (n : Nat) : natDigs n ≠ [] := by
  by_cases h0 : n / 10 = 0
  · rw [natDigs, dif_pos h0]
    simp
  · rw [natDigs, dif_neg h0]
    simp

/-- Folding the multiply-by-ten-and-add over the decimal digits of n
starting from a recovers a * 10 ^ (number of digits) + n. -/
theorem digitsVal_natDigs (n : Nat) :
    ∀ a, (natDigs n).foldl (fun acc c => acc * 10 + (c.toNat - 48)) a
      = a * 10 ^ (natDigs n).length + n := by
  induction n using Nat.strong_induction_on with
  | _ n ih =>
    intro a
    have hd : (Nat.digitChar (n % 10)).toNat = 48 + n % 10 :=
      digitChar_toNat _ (Nat.mod_lt _ (by omega))
    by_cases h0 : n / 10 = 0
    · rw [natDigs, dif_pos h0]
      simp only [List.foldl_cons, List.foldl_nil, List.length_singleton, pow_one, hd]
      omega
    · conv_lhs => rw [natDigs, dif_neg h0]
      conv_rhs => rw [natDigs, dif_neg h0]
      rw [List.foldl_append, ih _ (Nat.div_lt_self (by omega) (by omega)) a]
      simp only [List.foldl_cons, List.foldl_nil, List.length_append, List.length_singleton, hd]
      rw [pow_succ, ← Nat.mul_assoc]
      omega

/-- The decimal rendering of a Nat is injective. -/
theorem repr_inj (n1 n2 : Nat) (h : Nat.repr n1 = Nat.repr n2) : n1 = n2 := by
  have hdigs : natDigs n1 = natDigs n2 := by
    rw [← repr_data, ← repr_data, h]
  have h1 := digitsVal_natDigs n1 0
  have h2 := digitsVal_natDigs n2 0
  rw [hdigs, h2] at h1
  omega

/-- row_col_to_cell from src/utility.rs: the column name immediately
followed by the 1-based row number.  The row is a u32 (`RowNum`), so
the increment row_num + 1 is taken mod 2^32; the decimal rendering of
the result is Rust's Display of the u32. -/
def row_col_to_cell (rowNum colNum : Nat) : String :=
  column_number_to_name colNum ++ Nat.repr ((rowNum + 1) % 4294967296)

/-- row_col_to_cell_absolute from src/utility.rs: as row_col_to_cell
with each component preceded by a dollar sign. -/
def row_col_to_cell_absolute (rowNum colNum : Nat) : String :=
  "$" ++ column_number_to_name colNum ++ "$" ++ Nat.repr ((rowNum + 1) % 4294967296)

/-- cell_range from src/utility.rs: format both endpoints with
row_col_to_cell; if the two formatted strings are identical return the
first, otherwise join them with a colon. -/
def cell_range (firstRow firstCol lastRow lastCol : Nat) : String :=
  if row_col_to_cell firstRow firstCol = row_col_to_cell lastRow lastCol then
    row_col_to_cell firstRow firstCol
  else row_col_to_cell firstRow firstCol ++ ":" ++ row_col_to_cell lastRow lastCol

/-- cell_range_absolute from src/utility.rs: the same collapse rule
with the absolute formatter. -/
def cell_range_absolute (firstRow firstCol lastRow lastCol : Nat) : String :=
  if row_col_to_cell_absolute firstRow firstCol = row_col_to_cell_absolute lastRow lastCol then
    row_col_to_cell_absolute firstRow firstCol
  else
    row_col_to_cell_absolute firstRow firstCol ++ ":"
      ++ row_col_to_cell_absolute lastRow lastCol

/-- Every character of a column name is an uppercase letter A-Z. -/
theorem colNameLoop_upper (n : Nat) :
    ∀ c ∈ colNameLoop n [], 65 ≤ c.toNat ∧ c.toNat ≤ 90 := by
  induction n using Nat.strong_induction_on with
  | _ n ih =>
    intro c hc
    by_cases h : n = 0
    · subst h
      rw [colNameLoop] at hc
      simp at hc
    · have hlt : (n - 1) / 26 < n :=
        Nat.lt_of_le_of_lt (Nat.div_le_self _ _) (Nat.sub_lt (Nat.pos_of_ne_zero h) Nat.one_pos)
      rw [colNameLoop_decomp n h] at hc
      rcases List.mem_append.mp hc with hmem | hmem
      · exact ih _ hlt c hmem
      · simp only [List.mem_singleton] at hmem
        subst hmem
        have hr1 : 1 ≤ bijDigit n := bijDigit_ge_one n
        have hr26 : bijDigit n ≤ 26 := bijDigit_le n
        have := charOfNat_letter_toNat (bijDigit n) (by omega) (by omega)
        omega

theorem colNameLoop_zero_length : (colNameLoop 0 []).length = 0 := by
  rw [colNameLoop]
  simp

/-- A column index up to 18278 has a name of at most three letters. -/
theorem colNameLoop_length_le_three (n : Nat) (h : n ≤ 18278) :
    (colNameLoop n []).length ≤ 3 := by
  by_cases h0 : n = 0
  · subst h0
    rw [colNameLoop_zero_length]
    omega
  · rw [colNameLoop_length n h0]
    by_cases h1 : (n - 1) / 26 = 0
    · rw [h1, colNameLoop_zero_length]
      omega
    · rw [colNameLoop_length _ h1]
      by_cases h2 : ((n - 1) / 26 - 1) / 26 = 0
      · rw [h2, colNameLoop_zero_length]
        omega
      · rw [colNameLoop_length _ h2]
        have h3 : (((n - 1) / 26 - 1) / 26 - 1) / 26 = 0 := by omega
        rw [h3, colNameLoop_zero_length]

theorem colNameLoop_length_pos (n : Nat) (h : n ≠ 0) : 1 ≤ (colNameLoop n []).length := by
  rw [colNameLoop_length n h]
  omega

/-- Splitting a concatenation at a class boundary: if the left parts
satisfy P throughout and the right parts are non-empty with heads
outside P, the concatenations agree only when the parts agree. -/
theorem append_split_unique (P : Char → Prop) :
    ∀ (xs1 ys1 xs2 ys2 : List Char), xs1 ++ ys1 = xs2 ++ ys2 →
      (∀ c ∈ xs1, P c) → (∀ c ∈ xs2, P c) →
      (∀ c, ys1.head? = some c → ¬P c) → (∀ c, ys2.head? = some c → ¬P c) →
      ys1 ≠ [] → ys2 ≠ [] → xs1 = xs2 ∧ ys1 = ys2 := by
  intro xs1
  induction xs1 with
  | nil =>
    intro ys1 xs2 ys2 heq hP1 hP2 hh1 hh2 hne1 hne2
    cases xs2 with
    | nil => exact ⟨rfl, heq⟩
    | cons b xs2' =>
      exfalso
      rw [List.nil_append] at heq
      have hhead : ys1.head? = some b := by rw [heq]; rfl
      exact hh1 b hhead (hP2 b (by simp))
  | cons a xs1' ih =>
    intro ys1 xs2 ys2 heq hP1 hP2 hh1 hh2 hne1 hne2
    cases xs2 with
    | nil =>
      exfalso
      rw [List.nil_append] at heq
      have hhead : ys2.head? = some a := by rw [← heq]; rfl
      exact hh2 a hhead (hP1 a (by simp))
    | cons b xs2' =>
      simp only [List.cons_append, List.cons.injEq] at heq
      obtain ⟨hab, htail⟩ := heq
      obtain ⟨hx, hy⟩ := ih ys1 xs2' ys2 htail
        (fun c hc => hP1 c (by simp [hc])) (fun c hc => hP2 c (by simp [hc]))
        hh1 hh2 hne1 hne2
      exact ⟨by rw [hab, hx], hy⟩

theorem head?_mem_self : ∀ (l : List Char) (c : Char), l.head? = some c → c ∈ l := by
  intro l c h
  cases l with
  | nil => simp at h
  | cons a t =>
    simp only [List.head?_cons, Option.some.injEq] at h
    subst h
    exact List.mem_cons_self _ _

/-- For in-range inputs neither increment wraps, and the cell string is
the column letters followed by the decimal digits of the 1-based row. -/
theorem row_col_to_cell_data (row col : Nat) (hrow : row ≤ 1048576) (hcol : col ≤ 16384) :
    (row_col_to_cell row col).data = colNameLoop (col + 1) [] ++ natDigs (row + 1) := by
  unfold row_col_to_cell column_number_to_name
  rw [String.data_append,
    Nat.mod_eq_of_lt (show col + 1 < 65536 by omega),
    Nat.mod_eq_of_lt (show row + 1 < 4294967296 by omega), repr_data]

/-- On in-range coordinates the cell formatter is injective: the
formatted strings agree exactly when the coordinates agree. -/
theorem row_col_to_cell_inj (r1 c1 r2 c2 : Nat) (hr1 : r1 ≤ 1048576) (hc1 : c1 ≤ 16384)
    (hr2 : r2 ≤ 1048576) (hc2 : c2 ≤ 16384) :
    row_col_to_cell r1 c1 = row_col_to_cell r2 c2 ↔ (r1 = r2 ∧ c1 = c2) := by
  constructor
  · intro h
    have hd : colNameLoop (c1 + 1) [] ++ natDigs (r1 + 1)
        = colNameLoop (c2 + 1) [] ++ natDigs (r2 + 1) := by
      rw [← row_col_to_cell_data r1 c1 hr1 hc1, ← row_col_to_cell_data r2 c2 hr2 hc2, h]
    have hhd1 : ∀ c, (natDigs (r1 + 1)).head? = some c → ¬(65 ≤ c.toNat) := by
      intro c hc
      have := natDigs_digits (r1 + 1) c (head?_mem_self _ _ hc)
      omega
    have hhd2 : ∀ c, (natDigs (r2 + 1)).head? = some c → ¬(65 ≤ c.toNat) := by
      intro c hc
      have := natDigs_digits (r2 + 1) c (head?_mem_self _ _ hc)
      omega
    obtain ⟨hx, hy⟩ := append_split_unique (fun c => 65 ≤ c.toNat) _ _ _ _ hd
      (fun c hc => (colNameLoop_upper _ c hc).1)
      (fun c hc => (colNameLoop_upper _ c hc).1)
      hhd1 hhd2 (natDigs_ne_nil _) (natDigs_ne_nil _)
    have e1 := colParseLoop_colNameLoop (c1 + 1) 0 [] (by omega)
    have e2 := colParseLoop_colNameLoop (c2 + 1) 0 [] (by omega)
    rw [List.append_nil] at e1 e2
    rw [hx] at e1
    rw [e2] at e1
    simp only [colParseLoop, Option.some.injEq] at e1
    have d1 := digitsVal_natDigs (r1 + 1) 0
    have d2 := digitsVal_natDigs (r2 + 1) 0
    rw [hy, d2] at d1
    constructor
    · omega
    · omega
  · rintro ⟨rfl, rfl⟩
    rfl

/-- Claim C4: cell_range formats both endpoints with row_col_to_cell
and collapses to a single cell exactly when the two formatted strings
are identical; and on in-range coordinates string identity of the
endpoints coincides with equality of the coordinate pairs. -/
theorem claim_c4_cell_range :
    (∀ r1 c1 r2 c2 : Nat, cell_range r1 c1 r2 c2 =
      if row_col_to_cell r1 c1 = row_col_to_cell r2 c2 then row_col_to_cell r1 c1
      else row_col_to_cell r1 c1 ++ ":" ++ row_col_to_cell r2 c2)
    ∧ (∀ r1 c1 r2 c2 : Nat, r1 ≤ 1048576 → c1 ≤ 16384 → r2 ≤ 1048576 → c2 ≤ 16384 →
        (row_col_to_cell r1 c1 = row_col_to_cell r2 c2 ↔ (r1 = r2 ∧ c1 = c2))) :=
  ⟨fun _ _ _ _ => rfl, row_col_to_cell_inj⟩

theorem claim_c4_cell_range_witness :
    row_col_to_cell 0 0 = row_col_to_cell 9 0 ↔ ((0 : Nat) = 9 ∧ (0 : Nat) = 0) :=
  claim_c4_cell_range.2 0 0 9 0 (by omega) (by omega) (by omega) (by omega)

/-- The cell-reference grammar [A-Z]{1,3}[0-9]+ as a predicate: one to
three uppercase letters followed by at least one decimal digit. -/
def matchesCellRef (s : String) : Prop :=
  ∃ ls ds : List Char, s.data = ls ++ ds
    ∧ 1 ≤ ls.length ∧ ls.length ≤ 3
    ∧ (∀ c ∈ ls, 65 ≤ c.toNat ∧ c.toNat ≤ 90)
    ∧ 1 ≤ ds.length ∧ (∀ c ∈ ds, 48 ≤ c.toNat ∧ c.toNat ≤ 57)

/-- The absolute cell-reference grammar with dollar signs before each
component. -/
def matchesAbsCellRef (s : String) : Prop :=
  ∃ ls ds : List Char, s.data = '$' :: (ls ++ ('$' :: ds))
    ∧ 1 ≤ ls.length ∧ ls.length ≤ 3
    ∧ (∀ c ∈ ls, 65 ≤ c.toNat ∧ c.toNat ≤ 90)
    ∧ 1 ≤ ds.length ∧ (∀ c ∈ ds, 48 ≤ c.toNat ∧ c.toNat ≤ 57)

/-- Claim C7: for every in-range row and column, row_col_to_cell
matches [A-Z]{1,3}[0-9]+ and row_col_to_cell_absolute matches the
dollar-prefixed form of the same grammar. -/
theorem claim_c7_cell_reference_grammar (row col : Nat)
    (hrow : row ≤ 1048576) (hcol : col ≤ 16384) :
    matchesCellRef (row_col_to_cell row col)
      ∧ matchesAbsCellRef (row_col_to_cell_absolute row col) := by
  have hup := colNameLoop_upper (col + 1)
  have hdig := natDigs_digits (row + 1)
  have hlen3 : (colNameLoop (col + 1) []).length ≤ 3 :=
    colNameLoop_length_le_three _ (by omega)
  have hlen1 : 1 ≤ (colNameLoop (col + 1) []).length :=
    colNameLoop_length_pos _ (by omega)
  have hdlen : 1 ≤ (natDigs (row + 1)).length :=
    List.length_pos.mpr (natDigs_ne_nil _)
  constructor
  · exact ⟨_, _, row_col_to_cell_data row col hrow hcol, hlen1, hlen3, hup, hdlen, hdig⟩
  · refine ⟨colNameLoop (col + 1) [], natDigs (row + 1), ?_, hlen1, hlen3, hup, hdlen, hdig⟩
    show (row_col_to_cell_absolute row col).data
      = '$' :: (colNameLoop (col + 1) [] ++ ('$' :: natDigs (row + 1)))
    unfold row_col_to_cell_absolute column_number_to_name
    rw [String.data_append, String.data_append, String.data_append,
      Nat.mod_eq_of_lt (show col + 1 < 65536 by omega),
      Nat.mod_eq_of_lt (show row + 1 < 4294967296 by omega), repr_data]
    simp

theorem claim_c7_cell_reference_grammar_witness :
    matchesCellRef (row_col_to_cell 0 16384)
      ∧ matchesAbsCellRef (row_col_to_cell_absolute 0 16384) :=
  claim_c7_cell_reference_grammar 0 16384 (by omega) (by omega)
